import Mathlib

/-!
Verification development for the multi-reindex job manager.

The repository holds two near-duplicate implementations of the Manager:
`src/app/manager.js` (embedded below in namespace `App`) and
`src/unnamed/part_000` (embedded in namespace `Unnamed`).  The shared
redis store is embedded as an explicit `RedisState` record threaded
through every operation; the redis list/hash primitives (`lpop`, `rpush`,
`hset`, `hget`, `hdel`, `hgetall`, `hvals`, `del`) are embedded as pure
functions on association lists, mirroring their documented semantics
(`hset` reports the number of newly created fields).

The repository does not ship `job.js` (only its callers are in `src/`),
so the Job entity is modelled from the spec where needed; each such spot
is marked `Modelled from the spec:` in its doc comment.
-/

namespace MultiReindex

/-- Modelled from the spec: the Job entity (src has no job.js; only its
callers are in src).  A job is one (collection, sub-collection) unit of
work with a document count: fields `index`, `type`, `count` as used by
`manager.js` (`job.index`, `job.type`, `job.count`). -/
structure Job where
  index : String
  type : String
  count : Nat
deriving DecidableEq, Repr

/-- Modelled from the spec: the job id is a deterministic, reversible
concatenation of collection name and sub-collection name (construction
fails if the separator occurs in a name), and ids are opaque strings used
only as hash/queue keys.  Because the encoding is injective and opaque we
represent an id by the pair of names itself. -/
structure JobID where
  index : String
  type : String
deriving DecidableEq, Repr

/-- Modelled from the spec: `job.getID()` returns the id built from the
collection and sub-collection names. -/
def Job.getID (j : Job) : JobID := ⟨j.index, j.type⟩

/-- Modelled from the spec: `Job.createFromID(jobID, count)` rebuilds a
job from an id and a count (the id encoding is reversible). -/
def Job.createFromID (id : JobID) (count : Nat) : Job :=
  ⟨id.index, id.type, count⟩

/-- Shared-store contents: the backlog queue (`backlog_queue`, a redis
list of job ids), the backlog hash (`backlog_hset`, job id → count) and
the completed ledger (`completed`, job id → count).  Hash values are the
document counts; the JS client stores them as strings and re-parses them
with `parseInt`, which round-trips, so they are embedded as `Nat`. -/
structure RedisState where
  backlogQueue : List JobID
  backlogHash : List (JobID × Nat)
  completedHash : List (JobID × Nat)
deriving DecidableEq, Repr

/-- Empty store (all keys absent). -/
def RedisState.empty : RedisState := ⟨[], [], []⟩

/-- Redis `HSET hash field value`: writes the value and returns the
number of newly created fields (0 when the field already existed). -/
def hsetList (h : List (JobID × Nat)) (k : JobID) (v : Nat) :
    List (JobID × Nat) × Nat :=
  if h.any (fun p => p.1 == k) then
    (h.map (fun p => if p.1 == k then (k, v) else p), 0)
  else
    (h ++ [(k, v)], 1)

/-- Redis `HGET hash field`: the stored value, or null when absent. -/
def hgetList (h : List (JobID × Nat)) (k : JobID) : Option Nat :=
  (h.find? (fun p => p.1 == k)).map Prod.snd

/-- Redis `HDEL hash field`. -/
def hdelList (h : List (JobID × Nat)) (k : JobID) : List (JobID × Nat) :=
  h.filter (fun p => p.1 != k)

namespace App

/-- Embeds `fetchJob` of `src/app/manager.js` (lines 72-84): `lpop` the
backlog queue; on null return null; otherwise `hget` the id's count,
build the job with `Job.createFromID`, `hdel` the hash entry and return
the job.  When the hash field is missing the JS job carries a null
count; the claims only reach states where the field is present, and the
missing case is embedded as count 0. -/
def fetchJob (s : RedisState) : Option Job × RedisState :=
  match s.backlogQueue with
  | [] => (none, s)
  | jobID :: rest =>
    let count := (hgetList s.backlogHash jobID).getD 0
    let job := Job.createFromID jobID count
    (some job,
      { s with
        backlogQueue := rest
        backlogHash := hdelList s.backlogHash job.getID })

/-- Embeds `queueJob` of `src/app/manager.js` (lines 92-105): coerce the
argument to a Job, `hset` (id → count) into the backlog hash; if the
field was newly created, `rpush` the id onto the backlog queue, else log
a dedup warning and resolve without error.  A `none` argument stands for
a null/undefined JS argument; `new Job(null)` is Modelled from the spec:
the Job constructor silently wraps loosely-typed input rather than
rejecting it (design-notes section), yielding a job with empty fields. -/
def queueJob (jobArg : Option Job) (s : RedisState) : RedisState :=
  let job := match jobArg with
    | some j => j
    | none => ⟨"", "", 0⟩
  let r := hsetList s.backlogHash job.getID job.count
  if r.2 == 0 then
    { s with backlogHash := r.1 }
  else
    { s with
      backlogHash := r.1
      backlogQueue := s.backlogQueue ++ [job.getID] }

/-- Embeds `completeJob` of `src/app/manager.js` (lines 113-119): `hset`
(id → count) into the completed ledger, overwriting any prior entry. -/
def completeJob (jobArg : Option Job) (s : RedisState) : RedisState :=
  let job := match jobArg with
    | some j => j
    | none => ⟨"", "", 0⟩
  { s with completedHash := (hsetList s.completedHash job.getID job.count).1 }

/-- Embeds `clearBacklogJobs` of `src/app/manager.js`: `del` on the
backlog queue key and the backlog hash key. -/
def clearBacklogJobs (s : RedisState) : RedisState :=
  { s with backlogQueue := [], backlogHash := [] }

/-- Embeds `clearCompletedJobs` of `src/app/manager.js`: `del` on the
completed-ledger key. -/
def clearCompletedJobs (s : RedisState) : RedisState :=
  { s with completedHash := [] }

/-- Embeds `getBacklogJobs` of `src/app/manager.js` (lines 139-146):
`hgetall` on the backlog hash, one `Job.createFromID(jobID, count)` per
entry. -/
def getBacklogJobs (s : RedisState) : List Job :=
  s.backlogHash.map (fun p => Job.createFromID p.1 p.2)

/-- Embeds `getBacklogCount` of `src/app/manager.js` (lines 153-160):
`hvals` on the backlog hash, then a left fold `total += parseInt(count)`
starting from 0. -/
def getBacklogCount (s : RedisState) : Nat :=
  (s.backlogHash.map Prod.snd).foldl (fun total count => total + count) 0

/-- Embeds `getCompletedJobs` of `src/app/manager.js` (lines 167-174). -/
def getCompletedJobs (s : RedisState) : List Job :=
  s.completedHash.map (fun p => Job.createFromID p.1 p.2)

/-- Embeds `getCompletedCount` of `src/app/manager.js` (lines 181-188). -/
def getCompletedCount (s : RedisState) : Nat :=
  (s.completedHash.map Prod.snd).foldl (fun total count => total + count) 0

end App

namespace Unnamed

/-- Embeds `fetchJob` of `src/unnamed/part_000` (lines 80-92); the body
is textually identical to the `src/app/manager.js` version. -/
def fetchJob (s : RedisState) : Option Job × RedisState :=
  match s.backlogQueue with
  | [] => (none, s)
  | jobID :: rest =>
    let count := (hgetList s.backlogHash jobID).getD 0
    let job := Job.createFromID jobID count
    (some job,
      { s with
        backlogQueue := rest
        backlogHash := hdelList s.backlogHash job.getID })

/-- Embeds `queueJob` of `src/unnamed/part_000` (lines 100-117): unlike
the `src/app/manager.js` copy it first throws `job must be provided`
when the argument is missing; afterwards the body is identical. -/
def queueJob (jobArg : Option Job) (s : RedisState) : Except String RedisState :=
  match jobArg with
  | none => .error "job must be provided"
  | some job =>
    let r := hsetList s.backlogHash job.getID job.count
    if r.2 == 0 then
      .ok { s with backlogHash := r.1 }
    else
      .ok { s with
        backlogHash := r.1
        backlogQueue := s.backlogQueue ++ [job.getID] }

/-- Embeds `completeJob` of `src/unnamed/part_000` (lines 125-131);
textually identical to the `src/app/manager.js` version. -/
def completeJob (jobArg : Option Job) (s : RedisState) : RedisState :=
  let job := match jobArg with
    | some j => j
    | none => ⟨"", "", 0⟩
  { s with completedHash := (hsetList s.completedHash job.getID job.count).1 }

end Unnamed

/-- Discovered index descriptor: one entry of the elasticsearch
`indices.get` response after `getIndices` attaches the response key as
`index.name`.  `mappings` lists the mapping (type) names, the keys of
the JS `index.mappings` object, in object order. -/
structure IndexInfo where
  name : String
  mappings : List String
deriving DecidableEq, Repr

/-- Type object handed to the type filter: `filterIndicesAndTypes`
attaches the mapping key as `type.name` before filtering.  The mapping
body carries no further structure used by the manager, so only the name
is embedded. -/
structure TypeObj where
  name : String
deriving DecidableEq, Repr

/-- Output entry of `filterIndicesAndTypes`: an index name with its
surviving type names. -/
structure Target where
  index : String
  types : List String
deriving DecidableEq, Repr

/-- Job descriptor produced by `prepareNewJobs` (one per
(index, type) pair, no count yet). -/
structure PrepJob where
  index : String
  type : String
deriving DecidableEq, Repr

/-- Filter argument as passed to `setIndexFilter` / `setTypeFilter`: a
regex (embedded by its match semantics on a string), a JS function value
(embedded by its declared arity together with its predicate semantics),
or any other value.  String inputs resolve through `require` or RegExp
compilation of the string source — dynamic module loading is outside the
embedding and no claim exercises it. -/
inductive FilterInput (α : Type) where
  | regex (test : String → Bool)
  | func (arity : Nat) (pred : α → Bool)
  | other

/-- Filter value as stored by `src/unnamed/part_000`'s setters: the raw
regex or the raw function (that file stores the input unwrapped and
re-dispatches on its kind inside `filterIndicesAndTypes`). -/
inductive StoredFilter (α : Type) where
  | regex (test : String → Bool)
  | func (pred : α → Bool)

/-- Comparator argument as passed to `setIndexComparator`: a JS function
value (declared arity plus ordering semantics) or any other value. -/
inductive CompInput where
  | func (arity : Nat) (cmp : String → String → Int)
  | other

/-- Count query against the source system: `(index, type) ↦` document
count or a source-query error.  This is the `source.count` capability of
the elasticsearch client; the JS parses `result.count` with `parseInt`,
which round-trips on the numeric response, so the result is a `Nat`. -/
abbrev CountSource := String → String → Except String Nat

/-- Source-system (elasticsearch) client handle: `indices.get` returns
the discovered indices for a name specification (the `getIndices` reduce
attaching response keys as `.name` is folded into `IndexInfo.name`), and
`count` counts documents for an (index, type) pair. -/
structure EsClient where
  indicesGet : String → Except String (List IndexInfo)
  count : CountSource

namespace App

/-- Module-level mutable variables of `src/app/manager.js` (lines 14-19):
`indexFilter`, `indexComparator`, `typeFilter`, `source`, `redis` are
`let` bindings at module scope, shared by every Manager instance built
from the module.  The redis client handle is embedded as an opaque
numeric token (the store contents live in `RedisState`). -/
structure ModuleState where
  indexFilter : Option (IndexInfo → Bool)
  typeFilter : Option (TypeObj → Bool)
  indexComparator : Option (String → String → Int)
  source : Option EsClient
  redis : Option Nat

/-- Module state at load time: every module variable is null. -/
def ModuleState.initial : ModuleState := ⟨none, none, none, none, none⟩

/-- Instance fields set by the Manager constructor: `self.source` is the
only per-instance data field (every method is a shared module-level
closure). -/
structure ManagerInstance where
  source : EsClient

/-- Embeds the `Manager` constructor of `src/app/manager.js` (lines
29-65): sets `self.source` on the instance and overwrites the
module-level `source` and `redis` variables. -/
def Manager (sourceEs : EsClient) (redisClient : Nat) (m : ModuleState) :
    ManagerInstance × ModuleState :=
  (⟨sourceEs⟩, { m with source := some sourceEs, redis := some redisClient })

/-- Embeds `getFilterFunction` of `src/app/manager.js` (lines 410-458):
build a candidate filter function per input kind (a regex is wrapped as
`target => regex.test(target.name)`, an arrow function of declared arity
1; a function is used directly), then reject it when its declared arity
is below one (`filter function must take at least one argument`). -/
def getFilterFunction (nameOf : α → String) (filter : FilterInput α) :
    Except String (α → Bool) :=
  let build : Except String (Nat × (α → Bool)) :=
    match filter with
    | .regex test => .ok (1, fun target => test (nameOf target))
    | .func arity pred => .ok (arity, pred)
    | .other =>
      .error "filter could not be interpreted. Must be a path to a module, regex or function"
  build.bind (fun fn =>
    if fn.1 < 1 then .error "filter function must take at least one argument"
    else .ok fn.2)

/-- Embeds `setIndexFilter` of `src/app/manager.js` (lines 349-352):
stores the resolved filter function in the module-level `indexFilter`
variable; a resolution error propagates and leaves the state unchanged. -/
def setIndexFilter (filter : FilterInput IndexInfo) (m : ModuleState) :
    Except String ModuleState :=
  (getFilterFunction IndexInfo.name filter).map
    (fun fn => { m with indexFilter := some fn })

/-- Embeds `setTypeFilter` of `src/app/manager.js` (lines 377-380). -/
def setTypeFilter (filter : FilterInput TypeObj) (m : ModuleState) :
    Except String ModuleState :=
  (getFilterFunction TypeObj.name filter).map
    (fun fn => { m with typeFilter := some fn })

/-- Embeds `setIndexComparator` of `src/app/manager.js` (lines 359-370):
rejects anything that is not a function of declared arity 2, else stores
it in the module-level `indexComparator` variable. -/
def setIndexComparator (comparator : CompInput) (m : ModuleState) :
    Except String ModuleState :=
  match comparator with
  | .func arity cmp =>
    if arity != 2 then .error "comparator must be a function that takes 2 arguments"
    else .ok { m with indexComparator := some cmp }
  | .other => .error "comparator must be a function that takes 2 arguments"

/-- Embeds `filterIndicesAndTypes` of `src/app/manager.js` (lines
307-342): keep the indices accepted by the module-level `indexFilter`
when one is set (else all); per surviving index, build the type objects
from the mapping names, keep those accepted by the module-level
`typeFilter` when one is set (else all); push an output entry only when
the surviving type-name list is non-empty. -/
def filterIndicesAndTypes (m : ModuleState) (allIndices : List IndexInfo) :
    List Target :=
  let selectedIndices :=
    match m.indexFilter with
    | some pred => allIndices.filter pred
    | none => allIndices
  selectedIndices.foldl
    (fun result index =>
      let allTypes := index.mappings.map (fun n => TypeObj.mk n)
      let selectedTypes :=
        match m.typeFilter with
        | some pred => allTypes.filter pred
        | none => allTypes
      let typeNames := selectedTypes.map TypeObj.name
      if typeNames.length > 0 then result ++ [⟨index.name, typeNames⟩]
      else result)
    []

/-- Embeds `getIndices` of `src/app/manager.js` (lines 391-403): the
`indices.get` query with `allowNoIndices`; the response reduce that
attaches each key as `index.name` is folded into the modelled response. -/
def getIndices (client : EsClient) (targetIndices : String) :
    Except String (List IndexInfo) :=
  client.indicesGet targetIndices

/-- Embeds `addCountToJobs` of `src/app/manager.js` (lines 205-217):
`Promise.mapSeries` over the jobs, querying `source.count` for each
`(index, type)` and setting `job.count` to the parsed result; the first
failed query rejects the whole chain and no later job is queried.  The
second component instruments the embedding with the trace of count
queries actually issued, in issue order (the observable I/O of the
sequential chain); the JS returns only the job list.  `src` is the
module-level source handle's `count` method, passed explicitly. -/
def addCountToJobs (src : CountSource) :
    List PrepJob → Except String (List Job) × List (String × String)
  | [] => (.ok [], [])
  | j :: rest =>
    match src j.index j.type with
    | .error e => (.error e, [(j.index, j.type)])
    | .ok c =>
      let r := addCountToJobs src rest
      (r.1.map (fun js => Job.mk j.index j.type c :: js),
        (j.index, j.type) :: r.2)

/-- Embeds `prepareNewJobs` of `src/app/manager.js` (lines 257-299):
discovery via `getIndices` on the module-level source, then
`filterIndicesAndTypes`, then — when the module-level `indexComparator`
is a function — a sort of the targets by `comparator(a.index, b.index)`
(JS `Array.sort` is stable, embedded as a stable merge sort keeping `a`
before `b` when the comparator is non-positive), then expansion of each
target into one job per type.  A null module-level source would make the
JS throw; embedded as an error. -/
def prepareNewJobs (m : ModuleState) (indexNames : String) :
    Except String (List PrepJob) :=
  match m.source with
  | none => .error "source is not set"
  | some src =>
    (getIndices src indexNames).map (fun discovered =>
      let filteredTargets := filterIndicesAndTypes m discovered
      let sorted :=
        match m.indexComparator with
        | some cmp =>
          filteredTargets.mergeSort (fun a b => decide (cmp a.index b.index ≤ 0))
        | none => filteredTargets
      sorted.foldl
        (fun result target =>
          result ++ target.types.map (fun t => (⟨target.index, t⟩ : PrepJob)))
        [])

/-- Embeds `initialize` of `src/app/manager.js` (lines 227-249), renamed
because `initialize` is a Lean keyword: clear the backlog, prepare the
potential jobs, then — when `ignoreCompleted` — clear the completed
ledger and keep every potential job, else read the completed ledger and
drop every potential job whose `index` matches a completed entry's
`index` (the `_.filter` / `_.find` on `{index: ...}`); then
`addCountToJobs` and finally `queueJob` for each surviving job in order
(`Promise.each`).  The completed entries flow through a JSON round-trip
in the JS; Modelled from the spec: job serialization is reversible, so a
parsed completed entry exposes the `index` of the stored job id. -/
def initializeBacklog (m : ModuleState) (rs : RedisState)
    (indexNames : String) (ignoreCompleted : Bool) : Except String RedisState :=
  let rs1 := clearBacklogJobs rs
  (prepareNewJobs m indexNames).bind (fun potentialJobs =>
    let step :=
      if ignoreCompleted then (clearCompletedJobs rs1, potentialJobs)
      else
        let completed := getCompletedJobs rs1
        (rs1, potentialJobs.filter
          (fun p => ! completed.any (fun c => c.index == p.index)))
    match m.source with
    | none => .error "source is not set"
    | some src =>
      (addCountToJobs src.count step.2).1.map
        (fun jobs => jobs.foldl (fun s j => queueJob (some j) s) step.1))

end App

namespace Unnamed

/-- Embeds `setIndexFilter` of `src/unnamed/part_000` (lines 392-400):
store a regex as-is; store a function only when its declared arity is
exactly 1; anything else throws `filter must be a regex or function that
takes 1 argument`. -/
def setIndexFilter (filter : FilterInput IndexInfo) :
    Except String (StoredFilter IndexInfo) :=
  match filter with
  | .regex test => .ok (.regex test)
  | .func arity pred =>
    if arity == 1 then .ok (.func pred)
    else .error "filter must be a regex or function that takes 1 argument"
  | .other => .error "filter must be a regex or function that takes 1 argument"

/-- Embeds `setTypeFilter` of `src/unnamed/part_000` (lines 420-428);
same rule as its `setIndexFilter`. -/
def setTypeFilter (filter : FilterInput TypeObj) :
    Except String (StoredFilter TypeObj) :=
  match filter with
  | .regex test => .ok (.regex test)
  | .func arity pred =>
    if arity == 1 then .ok (.func pred)
    else .error "filter must be a regex or function that takes 1 argument"
  | .other => .error "filter must be a regex or function that takes 1 argument"

/-- Embeds `filterIndicesAndTypes` of `src/unnamed/part_000` (lines
344-385): same filtering as the `src/app/manager.js` copy, except the
stored filter may be a raw regex, re-dispatched here (`isRegExp` branch
testing `.name`, then `isFunction` branch). -/
def filterIndicesAndTypes (indexFilter : Option (StoredFilter IndexInfo))
    (typeFilter : Option (StoredFilter TypeObj))
    (allIndices : List IndexInfo) : List Target :=
  let selectedIndices : List IndexInfo :=
    match indexFilter with
    | some (.regex test) => allIndices.filter (fun index => test index.name)
    | some (.func pred) => allIndices.filter pred
    | none => allIndices
  selectedIndices.foldl
    (fun (result : List Target) index =>
      let allTypes : List TypeObj := index.mappings.map (fun n => TypeObj.mk n)
      let selectedTypes :=
        match typeFilter with
        | some (.regex test) => allTypes.filter (fun (t : TypeObj) => test t.name)
        | some (.func pred) => allTypes.filter pred
        | none => allTypes
      let typeNames := selectedTypes.map TypeObj.name
      if typeNames.length > 0 then result ++ [⟨index.name, typeNames⟩]
      else result)
    []

/-- Embeds `addCountToJobs` of `src/unnamed/part_000` (lines 240-253):
as the `src/app/manager.js` copy, but additionally accumulates the
module-level `totalCount` (`totalCount += job.count` after each
successful query).  Takes the current `totalCount` and returns the final
one alongside the result and the instrumented query trace. -/
def addCountToJobs (src : CountSource) (totalCount : Nat) :
    List PrepJob → Except String (List Job) × (List (String × String) × Nat)
  | [] => (.ok [], ([], totalCount))
  | j :: rest =>
    match src j.index j.type with
    | .error e => (.error e, ([(j.index, j.type)], totalCount))
    | .ok c =>
      let r := addCountToJobs src (totalCount + c) rest
      (r.1.map (fun js => Job.mk j.index j.type c :: js),
        ((j.index, j.type) :: r.2.1, r.2.2))

end Unnamed

/-- Backlog operation alphabet for the state-invariant claims: the
shared-store operations a run may perform, in any order. -/
inductive Op where
  | queue (j : Job)
  | fetch
  | complete (j : Job)
  | clearBacklog
  | clearCompleted
deriving Repr

/-- Applies one backlog operation (the `src/app/manager.js`
implementations) to the store. -/
def applyOp (s : RedisState) : Op → RedisState
  | .queue j => App.queueJob (some j) s
  | .fetch => (App.fetchJob s).2
  | .complete j => App.completeJob (some j) s
  | .clearBacklog => App.clearBacklogJobs s
  | .clearCompleted => App.clearCompletedJobs s

/-- Runs a sequence of backlog operations left to right. -/
def execOps (ops : List Op) (s : RedisState) : RedisState :=
  ops.foldl applyOp s

/-- Local state of one worker running `fetchJob` (`src/app/manager.js`
lines 72-84), split at the await points between the three store calls:
before the `lpop`; holding the popped id before the `hget`; holding id
and read count before the `hdel`; finished with a job; or finished with
the null no-job result.  The count is the raw `hget` reply (null when
the field was missing), as handed to `Job.createFromID`. -/
inductive WState where
  | start
  | gotId (id : JobID)
  | gotCount (id : JobID) (count : Option Nat)
  | doneJob (id : JobID) (count : Option Nat)
  | doneNone
deriving DecidableEq, Repr

/-- Job id a worker currently holds (popped and not relinquished —
ownership transfers to the caller and is never returned). -/
def WState.heldId : WState → Option JobID
  | .start => none
  | .doneNone => none
  | .gotId id => some id
  | .gotCount id _ => some id
  | .doneJob id _ => some id

/-- Worker finished (its `fetchJob` promise resolved). -/
def WState.isDone : WState → Bool
  | .doneJob _ _ => true
  | .doneNone => true
  | _ => false

/-- Worker finished with a job. -/
def WState.isDoneJob : WState → Bool
  | .doneJob _ _ => true
  | _ => false

/-- Worker finished with the null no-job-available result. -/
def WState.isDoneNone : WState → Bool
  | .doneNone => true
  | _ => false

/-- Shared store plus the local states of the concurrent `fetchJob`
callers.  Each of the three store calls inside `fetchJob` is atomic at
the store (redis serializes commands); between them any other caller may
run, so a system run is an arbitrary interleaving of single atomic
steps. -/
structure Sys where
  queue : List JobID
  hash : List (JobID × Nat)
  callers : List WState
deriving DecidableEq, Repr

/-- Executes one atomic step of caller `i`: its next pending store call
(`lpop`, then `hget`, then `hdel`).  Out-of-range indices and finished
callers are no-ops. -/
def stepCaller (s : Sys) (i : Nat) : Sys :=
  match s.callers[i]? with
  | some .start =>
    match s.queue with
    | [] => { s with callers := s.callers.set i .doneNone }
    | id :: rest =>
      { s with queue := rest, callers := s.callers.set i (.gotId id) }
  | some (.gotId id) =>
    { s with callers := s.callers.set i (.gotCount id (hgetList s.hash id)) }
  | some (.gotCount id count) =>
    { s with
      hash := hdelList s.hash id
      callers := s.callers.set i (.doneJob id count) }
  | _ => s

/-- Runs an interleaving schedule: at each tick the scheduled caller
performs its next atomic store call. -/
def runSched (s : Sys) (sched : List Nat) : Sys :=
  sched.foldl stepCaller s

/-- Initial system: the backlog queue holds the ids, the backlog hash
the entries, and each of the `n` callers is about to issue its `lpop`. -/
def Sys.init (queue : List JobID) (hash : List (JobID × Nat)) (n : Nat) : Sys :=
  ⟨queue, hash, List.replicate n .start⟩

/-- Predicate the index filter of `filterIndicesAndTypes` effectively
applies to one index: the stored predicate when one is set, else accept
(this re-exposes the `isFunction(indexFilter)` branch of the source). -/
def App.acceptIndex (m : App.ModuleState) (index : IndexInfo) : Bool :=
  match m.indexFilter with
  | some pred => pred index
  | none => true

/-- Type names surviving the type filter for one index, exactly as the
inner body of `filterIndicesAndTypes` computes them. -/
def App.keptTypeNames (m : App.ModuleState) (index : IndexInfo) : List String :=
  let allTypes : List TypeObj := index.mappings.map (fun n => TypeObj.mk n)
  let selectedTypes :=
    match m.typeFilter with
    | some pred => allTypes.filter pred
    | none => allTypes
  selectedTypes.map TypeObj.name

/-- Predicate a stored `src/unnamed/part_000` filter denotes: a stored
regex tests the candidate's name, a stored function is applied directly
(the two dispatch branches inside that file's `filterIndicesAndTypes`). -/
def StoredFilter.toPred (nameOf : α → String) : StoredFilter α → (α → Bool)
  | .regex test => fun x => test (nameOf x)
  | .func pred => pred

/-- Inductive invariant of the concurrent `fetchJob` system: caller
count is stable, and for some `k` bounded by the backlog size, the queue
is the original queue minus its first `k` ids, the ids currently held by
callers are exactly those popped first `k` ids (each held once), and
once any caller has observed an empty queue the queue is empty (it never
grows again). -/
def SysInv (initQ : List JobID) (n : Nat) (s : Sys) : Prop :=
  s.callers.length = n ∧
  ∃ k, k ≤ initQ.length ∧
    s.queue = initQ.drop k ∧
    (s.callers.filterMap WState.heldId).Perm (initQ.take k) ∧
    (WState.doneNone ∈ s.callers → s.queue = [])

/-- Sample count source for witnesses: knows index `a`, fails
elsewhere. -/
def srcBoom : CountSource :=
  fun i _ => if i == "a" then .ok 3 else .error "boom"

/-- Sample elasticsearch client for witnesses: one index `A` with one
type `t`, every count query returns 3. -/
def esSample : EsClient :=
  ⟨fun _ => .ok [⟨"A", ["t"]⟩], fun _ _ => .ok 3⟩

/-! ### Shared lemmas about the store primitives -/

theorem hgetList_eq_none_iff (h : List (JobID × Nat)) (k : JobID) :
    hgetList h k = none ↔ ∀ p ∈ h, p.1 ≠ k := by
  simp [hgetList, List.find?_eq_none]

theorem hsetList_fresh (h : List (JobID × Nat)) (k : JobID) (v : Nat)
    (hf : ∀ p ∈ h, p.1 ≠ k) : hsetList h k v = (h ++ [(k, v)], 1) := by
  have hany : h.any (fun p => p.1 == k) = false := by
    simp only [List.any_eq_false]
    intro p hp
    simpa using hf p hp
  simp [hsetList, hany]

theorem hsetList_existing (h : List (JobID × Nat)) (k : JobID) (v : Nat)
    (hm : ∃ p ∈ h, p.1 = k) :
    hsetList h k v = (h.map (fun p => if p.1 == k then (k, v) else p), 0) := by
  have hany : h.any (fun p => p.1 == k) = true := by
    obtain ⟨p, hp, he⟩ := hm
    exact List.any_eq_true.mpr ⟨p, hp, by simpa using he⟩
  simp [hsetList, hany]

theorem hgetList_append_fresh (h : List (JobID × Nat)) (k : JobID) (v : Nat)
    (hf : ∀ p ∈ h, p.1 ≠ k) : hgetList (h ++ [(k, v)]) k = some v := by
  have hn : h.find? (fun p => p.1 == k) = none := by
    rw [List.find?_eq_none]
    intro p hp
    simpa using hf p hp
  simp [hgetList, List.find?_append, hn]

theorem hdelList_append_fresh (h : List (JobID × Nat)) (k : JobID) (v : Nat)
    (hf : ∀ p ∈ h, p.1 ≠ k) : hdelList (h ++ [(k, v)]) k = h := by
  have h1 : h.filter (fun p => p.1 != k) = h := by
    rw [List.filter_eq_self]
    intro p hp
    simpa using hf p hp
  simp [hdelList, List.filter_append, h1]

/-- The `src/unnamed/part_000` `queueJob` agrees with the
`src/app/manager.js` one whenever the job argument is present. -/
theorem queueJob_unnamed_ok (j : Job) (s : RedisState) :
    Unnamed.queueJob (some j) s = .ok (App.queueJob (some j) s) := by
  cases h : (hsetList s.backlogHash j.getID j.count).2 == 0 <;>
    simp [App.queueJob, Unnamed.queueJob, h]

/-! ### Claim theorems -/

/-- C10 (amended): for every present (non-null) job argument and every
shared-store state, the backlog operations `queueJob`, `fetchJob` and
`completeJob` of `src/app/manager.js` and of `src/unnamed/part_000`
return the same result and leave the store in the same state; the
original claim's "every job argument" fails only at a missing argument
(see the counterexample). -/
theorem duplicate_impl_equiv (j : Job) (s : RedisState) :
    Unnamed.fetchJob s = App.fetchJob s ∧
    Unnamed.queueJob (some j) s = .ok (App.queueJob (some j) s) ∧
    Unnamed.completeJob (some j) s = App.completeJob (some j) s :=
  ⟨rfl, queueJob_unnamed_ok j s, rfl⟩

/-- C10 counterexample: on a missing (null) job argument the two
`queueJob` implementations disagree — `src/unnamed/part_000` throws
`job must be provided` while `src/app/manager.js` performs no such check
and completes. -/
theorem duplicate_impl_null_counterexample :
    Unnamed.queueJob none RedisState.empty = .error "job must be provided" ∧
    Unnamed.queueJob none RedisState.empty ≠
      .ok (App.queueJob none RedisState.empty) :=
  ⟨rfl, fun h => Except.noConfusion h⟩

/-- C5 counterexample: `getFilterFunction` of `src/app/manager.js`
accepts a predicate of declared arity 2, although the claim requires
every function of arity other than one to fail resolution. -/
theorem filter_arity_counterexample :
    (App.getFilterFunction IndexInfo.name
      (.func 2 (fun _ => true))).isOk = true ∧ (2 : Nat) ≠ 1 :=
  ⟨rfl, by decide⟩

/-- C5 (amended): `src/app/manager.js` resolution accepts a function
filter iff its declared arity is at least one (only arity zero fails,
with `filter function must take at least one argument`), while the
`src/unnamed/part_000` setters accept a function iff its declared arity
is exactly one. -/
theorem filter_arity_rule (a : Nat) (p : IndexInfo → Bool) (q : TypeObj → Bool) :
    (App.getFilterFunction IndexInfo.name (.func a p)).isOk = decide (1 ≤ a) ∧
    (App.getFilterFunction TypeObj.name (.func a q)).isOk = decide (1 ≤ a) ∧
    (Unnamed.setIndexFilter (.func a p)).isOk = decide (a = 1) ∧
    (Unnamed.setTypeFilter (.func a q)).isOk = decide (a = 1) := by
  refine ⟨?_, ?_, ?_, ?_⟩
  · rcases Nat.eq_zero_or_pos a with h0 | h0
    · simp [App.getFilterFunction, Except.bind, Except.isOk, Except.toBool, h0]
    · have h1 : a ≠ 0 := by omega
      have h2 : 1 ≤ a := h0
      simp [App.getFilterFunction, Except.bind, Except.isOk, Except.toBool, h1, h2]
  · rcases Nat.eq_zero_or_pos a with h0 | h0
    · simp [App.getFilterFunction, Except.bind, Except.isOk, Except.toBool, h0]
    · have h1 : a ≠ 0 := by omega
      have h2 : 1 ≤ a := h0
      simp [App.getFilterFunction, Except.bind, Except.isOk, Except.toBool, h1, h2]
  · by_cases h : a = 1 <;>
      simp [Unnamed.setIndexFilter, h, Except.isOk, Except.toBool]
  · by_cases h : a = 1 <;>
      simp [Unnamed.setTypeFilter, h, Except.isOk, Except.toBool]

/-- C7: after any sequence of queue/fetch/complete/clear operations, the
backlog count equals the sum of the counts of the enumerated backlog
jobs, an empty or absent hash yields count 0, and likewise for the
completed ledger. -/
theorem count_matches_enumeration :
    (∀ (ops : List Op) (s0 : RedisState),
      App.getBacklogCount (execOps ops s0) =
        ((App.getBacklogJobs (execOps ops s0)).map Job.count).sum ∧
      App.getCompletedCount (execOps ops s0) =
        ((App.getCompletedJobs (execOps ops s0)).map Job.count).sum) ∧
    (∀ (q : List JobID) (c : List (JobID × Nat)),
      App.getBacklogCount ⟨q, [], c⟩ = 0) ∧
    (∀ (q : List JobID) (h : List (JobID × Nat)),
      App.getCompletedCount ⟨q, h, []⟩ = 0) := by
  have key : ∀ s : RedisState,
      App.getBacklogCount s = ((App.getBacklogJobs s).map Job.count).sum := by
    intro s
    simp [App.getBacklogCount, App.getBacklogJobs, List.map_map,
      List.sum_eq_foldl]
    rfl
  have key2 : ∀ s : RedisState,
      App.getCompletedCount s = ((App.getCompletedJobs s).map Job.count).sum := by
    intro s
    simp [App.getCompletedCount, App.getCompletedJobs, List.map_map,
      List.sum_eq_foldl]
    rfl
  exact ⟨fun ops s0 => ⟨key _, key2 _⟩, fun q c => rfl, fun q h => rfl⟩

/-- C3: queueing the same job twice consecutively leaves exactly one
occurrence of its id in the backlog queue and exactly one hash entry for
it; the second call is a warning-only no-op on the queue, and the
`src/unnamed/part_000` copy also resolves it without error. -/
theorem queueJob_twice_dedup (j : Job) (s : RedisState)
    (hq : j.getID ∉ s.backlogQueue)
    (hh : hgetList s.backlogHash j.getID = none) :
    (App.queueJob (some j) (App.queueJob (some j) s)).backlogQueue.count j.getID = 1 ∧
    (App.queueJob (some j) (App.queueJob (some j) s)).backlogHash.countP
      (fun p => p.1 == j.getID) = 1 ∧
    (App.queueJob (some j) (App.queueJob (some j) s)).backlogQueue =
      (App.queueJob (some j) s).backlogQueue ∧
    Unnamed.queueJob (some j) (App.queueJob (some j) s) =
      .ok (App.queueJob (some j) (App.queueJob (some j) s)) := by
  have hf : ∀ p ∈ s.backlogHash, p.1 ≠ j.getID := (hgetList_eq_none_iff _ _).mp hh
  have h1 : App.queueJob (some j) s =
      { s with backlogHash := s.backlogHash ++ [(j.getID, j.count)],
               backlogQueue := s.backlogQueue ++ [j.getID] } := by
    simp [App.queueJob, hsetList_fresh _ _ _ hf]
  have hm : ∃ p ∈ s.backlogHash ++ [(j.getID, j.count)], p.1 = j.getID :=
    ⟨(j.getID, j.count), by simp, rfl⟩
  have h2 : App.queueJob (some j)
      { s with backlogHash := s.backlogHash ++ [(j.getID, j.count)],
               backlogQueue := s.backlogQueue ++ [j.getID] } =
      { s with
        backlogHash := (s.backlogHash ++ [(j.getID, j.count)]).map
          (fun p => if p.1 == j.getID then (j.getID, j.count) else p),
        backlogQueue := s.backlogQueue ++ [j.getID] } := by
    simp [App.queueJob, hsetList_existing _ _ _ hm]
  refine ⟨?_, ?_, ?_, queueJob_unnamed_ok j _⟩
  · rw [h1, h2]
    simp [List.count_append, List.count_eq_zero.mpr hq]
  · rw [h1, h2, List.countP_map, List.countP_append]
    have hz : List.countP ((fun p : JobID × Nat => p.1 == j.getID) ∘
        (fun p : JobID × Nat => if p.1 == j.getID then (j.getID, j.count) else p))
        s.backlogHash = 0 := by
      refine List.countP_eq_zero.mpr ?_
      intro p hp
      have hne : p.1 ≠ j.getID := hf p hp
      simp [Function.comp, hne]
    rw [hz]
    simp [Function.comp]
  · rw [h1, h2]

/-- C3 witness: a concrete double enqueue on the empty store. -/
theorem queueJob_twice_dedup_witness :
    ((Job.getID ⟨"a", "t", 2⟩) ∉ RedisState.empty.backlogQueue) ∧
    hgetList RedisState.empty.backlogHash (Job.getID ⟨"a", "t", 2⟩) = none ∧
    ((App.queueJob (some ⟨"a", "t", 2⟩)
        (App.queueJob (some ⟨"a", "t", 2⟩) RedisState.empty)).backlogQueue.count
      (Job.getID ⟨"a", "t", 2⟩) = 1 ∧
    (App.queueJob (some ⟨"a", "t", 2⟩)
        (App.queueJob (some ⟨"a", "t", 2⟩) RedisState.empty)).backlogHash.countP
      (fun p => p.1 == Job.getID ⟨"a", "t", 2⟩) = 1 ∧
    (App.queueJob (some ⟨"a", "t", 2⟩)
        (App.queueJob (some ⟨"a", "t", 2⟩) RedisState.empty)).backlogQueue =
      (App.queueJob (some ⟨"a", "t", 2⟩) RedisState.empty).backlogQueue ∧
    Unnamed.queueJob (some ⟨"a", "t", 2⟩)
        (App.queueJob (some ⟨"a", "t", 2⟩) RedisState.empty) =
      .ok (App.queueJob (some ⟨"a", "t", 2⟩)
        (App.queueJob (some ⟨"a", "t", 2⟩) RedisState.empty))) :=
  ⟨by decide, rfl,
    queueJob_twice_dedup ⟨"a", "t", 2⟩ RedisState.empty (by decide) rfl⟩

/-- C2 counterexample: on a backlog already holding another id, queueing
job `(a, u, 5)` and immediately fetching returns the other job
`(k, t, 1)` (the queue is FIFO: `rpush` appends, `lpop` pops the front),
refuting the claim for backlogs that merely lack J's id. -/
theorem roundtrip_counterexample :
    ((⟨"a", "u"⟩ : JobID) ∉ ([⟨"k", "t"⟩] : List JobID)) ∧
    hgetList [((⟨"k", "t"⟩ : JobID), 1)] ⟨"a", "u"⟩ = none ∧
    (App.fetchJob (App.queueJob (some ⟨"a", "u", 5⟩)
      (⟨[⟨"k", "t"⟩], [(⟨"k", "t"⟩, 1)], []⟩ : RedisState))).1 = some ⟨"k", "t", 1⟩ ∧
    (⟨"k", "t", 1⟩ : Job) ≠ ⟨"a", "u", 5⟩ := by
  refine ⟨by decide, by decide, by decide, by decide⟩

/-- C2 (amended): on an empty backlog queue whose hash lacks J's id,
`queueJob(J)` followed immediately by `fetchJob()` returns a job with
J's id and count, afterwards neither the backlog queue nor the backlog
hash contains J's id, and the backlog count no longer includes J's
count.  The original claim fails when the backlog holds other jobs (see
the counterexample). -/
theorem queueJob_then_fetchJob_roundtrip (J : Job) (s : RedisState)
    (hq : s.backlogQueue = [])
    (hh : hgetList s.backlogHash J.getID = none) :
    (App.fetchJob (App.queueJob (some J) s)).1 = some J ∧
    J.getID ∉ (App.fetchJob (App.queueJob (some J) s)).2.backlogQueue ∧
    hgetList (App.fetchJob (App.queueJob (some J) s)).2.backlogHash J.getID = none ∧
    App.getBacklogCount (App.fetchJob (App.queueJob (some J) s)).2 =
      App.getBacklogCount s := by
  have hf : ∀ p ∈ s.backlogHash, p.1 ≠ J.getID := (hgetList_eq_none_iff _ _).mp hh
  have h1 : App.queueJob (some J) s =
      { s with backlogHash := s.backlogHash ++ [(J.getID, J.count)],
               backlogQueue := s.backlogQueue ++ [J.getID] } := by
    simp [App.queueJob, hsetList_fresh _ _ _ hf]
  rw [h1, hq]
  have h2 : App.fetchJob
      { s with backlogHash := s.backlogHash ++ [(J.getID, J.count)],
               backlogQueue := [] ++ [J.getID] } =
      (some J, { s with backlogHash := s.backlogHash, backlogQueue := [] }) := by
    simp [App.fetchJob, hgetList_append_fresh _ _ _ hf]
    constructor
    · rfl
    · exact hdelList_append_fresh _ _ _ hf
  rw [h2]
  exact ⟨rfl, by simp, hh, rfl⟩

/-- C2 witness: concrete round trip through the empty store. -/
theorem queueJob_then_fetchJob_roundtrip_witness :
    RedisState.empty.backlogQueue = [] ∧
    hgetList RedisState.empty.backlogHash (Job.getID ⟨"a", "t", 2⟩) = none ∧
    ((App.fetchJob (App.queueJob (some ⟨"a", "t", 2⟩) RedisState.empty)).1 =
      some ⟨"a", "t", 2⟩ ∧
    (Job.getID ⟨"a", "t", 2⟩) ∉
      (App.fetchJob (App.queueJob (some ⟨"a", "t", 2⟩) RedisState.empty)).2.backlogQueue ∧
    hgetList
      (App.fetchJob (App.queueJob (some ⟨"a", "t", 2⟩) RedisState.empty)).2.backlogHash
      (Job.getID ⟨"a", "t", 2⟩) = none ∧
    App.getBacklogCount
      (App.fetchJob (App.queueJob (some ⟨"a", "t", 2⟩) RedisState.empty)).2 =
      App.getBacklogCount RedisState.empty) :=
  ⟨rfl, rfl, queueJob_then_fetchJob_roundtrip ⟨"a", "t", 2⟩ RedisState.empty rfl rfl⟩

/-- C8: an index is kept iff the index predicate accepts it (all kept
when no index filter is set); within each kept index the sub-collections
kept are exactly those the type predicate accepts (all when no type
filter is set); an index whose kept sub-collection set is empty is
absent from the result; and the `src/unnamed/part_000` copy computes the
same result under the denotation of its stored raw filters. -/
theorem filterIndicesAndTypes_spec (m : App.ModuleState) (allIndices : List IndexInfo) :
    App.filterIndicesAndTypes m allIndices =
      (allIndices.filter (App.acceptIndex m)).filterMap
        (fun index => if App.keptTypeNames m index = [] then none
          else some ⟨index.name, App.keptTypeNames m index⟩) ∧
    (∀ t ∈ App.filterIndicesAndTypes m allIndices, t.types ≠ []) ∧
    (∀ t ∈ App.filterIndicesAndTypes m allIndices, ∃ index ∈ allIndices,
      App.acceptIndex m index = true ∧ t.index = index.name ∧
      t.types = App.keptTypeNames m index) ∧
    (∀ index ∈ allIndices, App.acceptIndex m index = true →
      App.keptTypeNames m index ≠ [] →
      (⟨index.name, App.keptTypeNames m index⟩ : Target) ∈
        App.filterIndicesAndTypes m allIndices) ∧
    (m.indexFilter = none → ∀ index, App.acceptIndex m index = true) ∧
    (m.typeFilter = none → ∀ index, App.keptTypeNames m index = index.mappings) ∧
    (∀ (ifl : Option (StoredFilter IndexInfo)) (tfl : Option (StoredFilter TypeObj)),
      Unnamed.filterIndicesAndTypes ifl tfl allIndices =
        App.filterIndicesAndTypes
          ⟨ifl.map (StoredFilter.toPred IndexInfo.name),
           tfl.map (StoredFilter.toPred TypeObj.name), none, none, none⟩ allIndices) := by
  have hfold : ∀ (l : List IndexInfo) (acc : List Target),
      l.foldl (fun result index =>
        if (App.keptTypeNames m index).length > 0
        then result ++ [⟨index.name, App.keptTypeNames m index⟩]
        else result) acc =
      acc ++ l.filterMap (fun index =>
        if App.keptTypeNames m index = [] then none
        else some ⟨index.name, App.keptTypeNames m index⟩) := by
    intro l
    induction l with
    | nil => intro acc; simp
    | cons x xs ih =>
      intro acc
      by_cases hx : App.keptTypeNames m x = []
      · have hlen : ¬ ((App.keptTypeNames m x).length > 0) := by simp [hx]
        simp [List.foldl_cons, hlen, hx, ih]
      · have hlen : (App.keptTypeNames m x).length > 0 := by
          cases hkt : App.keptTypeNames m x with
          | nil => exact absurd hkt hx
          | cons a b => simp
        simp [List.foldl_cons, hlen, hx, ih]
  have hsel : (match m.indexFilter with
      | some pred => allIndices.filter pred
      | none => allIndices) = allIndices.filter (App.acceptIndex m) := by
    cases hif : m.indexFilter with
    | none =>
      symm
      refine List.filter_eq_self.mpr ?_
      intro a _
      simp [App.acceptIndex, hif]
    | some pred =>
      refine List.filter_congr ?_
      intro a _
      simp [App.acceptIndex, hif]
  have heq : App.filterIndicesAndTypes m allIndices =
      (allIndices.filter (App.acceptIndex m)).filterMap
        (fun index => if App.keptTypeNames m index = [] then none
          else some ⟨index.name, App.keptTypeNames m index⟩) := by
    show (match m.indexFilter with
        | some pred => allIndices.filter pred
        | none => allIndices).foldl (fun result index =>
          if (App.keptTypeNames m index).length > 0
          then result ++ [(⟨index.name, App.keptTypeNames m index⟩ : Target)]
          else result) [] = _
    rw [hsel, hfold]
    simp
  refine ⟨heq, ?_, ?_, ?_, ?_, ?_, ?_⟩
  · intro t ht
    rw [heq] at ht
    obtain ⟨index, hmem, hsome⟩ := List.mem_filterMap.mp ht
    by_cases hk : App.keptTypeNames m index = []
    · simp [hk] at hsome
    · simp [hk] at hsome
      intro habs
      rw [← hsome] at habs
      simp at habs
      exact hk habs
  · intro t ht
    rw [heq] at ht
    obtain ⟨index, hmem, hsome⟩ := List.mem_filterMap.mp ht
    obtain ⟨hx, hacc⟩ := List.mem_filter.mp hmem
    by_cases hk : App.keptTypeNames m index = []
    · simp [hk] at hsome
    · simp [hk] at hsome
      refine ⟨index, hx, hacc, ?_, ?_⟩
      · rw [← hsome]
      · rw [← hsome]
  · intro index hmem hacc hk
    rw [heq]
    refine List.mem_filterMap.mpr ⟨index, List.mem_filter.mpr ⟨hmem, hacc⟩, ?_⟩
    simp [hk]
  · intro hif index
    simp [App.acceptIndex, hif]
  · intro htf index
    simp only [App.keptTypeNames, htf, List.map_map]
    rw [show (TypeObj.name ∘ fun n => TypeObj.mk n) = fun n : String => n from rfl,
      List.map_id']
  · intro ifl tfl
    rcases ifl with _ | (t | p) <;> rcases tfl with _ | (t2 | p2) <;> rfl

/-- C8 witness: with an index filter selecting name `A` and no type
filter, the index `A` with both of its types is in the result. -/
theorem filterIndicesAndTypes_spec_witness :
    ((⟨"A", ["t1", "t2"]⟩ : IndexInfo) ∈
      ([⟨"A", ["t1", "t2"]⟩, ⟨"B", ["u"]⟩] : List IndexInfo)) ∧
    App.acceptIndex
      ⟨some (fun i => i.name == "A"), none, none, none, none⟩
      ⟨"A", ["t1", "t2"]⟩ = true ∧
    App.keptTypeNames
      ⟨some (fun i => i.name == "A"), none, none, none, none⟩
      ⟨"A", ["t1", "t2"]⟩ ≠ [] ∧
    (⟨"A", ["t1", "t2"]⟩ : Target) ∈
      App.filterIndicesAndTypes
        ⟨some (fun i => i.name == "A"), none, none, none, none⟩
        [⟨"A", ["t1", "t2"]⟩, ⟨"B", ["u"]⟩] :=
  ⟨by decide, rfl, by decide,
    (filterIndicesAndTypes_spec
      ⟨some (fun i => i.name == "A"), none, none, none, none⟩
      [⟨"A", ["t1", "t2"]⟩, ⟨"B", ["u"]⟩]).2.2.2.1
      ⟨"A", ["t1", "t2"]⟩ (by decide) rfl (by decide)⟩

/-- C6: enrichment queries the source count of each job one at a time in
job order (the instrumented trace lists the queries in issue order and a
failure stops all further queries); each job's count is set to the query
result; the `src/unnamed/part_000` copy computes the same jobs and trace
and additionally accumulates the running `totalCount` over the jobs
processed so far; a failed query aborts the whole enrichment with that
error and no partial success is reported. -/
theorem addCountToJobs_spec (src : CountSource) (jobs : List PrepJob) (total0 : Nat) :
    ((Unnamed.addCountToJobs src total0 jobs).1 = (App.addCountToJobs src jobs).1 ∧
     (Unnamed.addCountToJobs src total0 jobs).2.1 = (App.addCountToJobs src jobs).2) ∧
    (∀ js, (App.addCountToJobs src jobs).1 = .ok js →
      List.Forall₂ (fun (p : PrepJob) (j : Job) =>
        j.index = p.index ∧ j.type = p.type ∧ src p.index p.type = .ok j.count)
        jobs js ∧
      (App.addCountToJobs src jobs).2 = jobs.map (fun p => (p.index, p.type)) ∧
      (Unnamed.addCountToJobs src total0 jobs).2.2 = total0 + (js.map Job.count).sum) ∧
    (∀ e, (App.addCountToJobs src jobs).1 = .error e →
      ∃ pre bad post, jobs = pre ++ bad :: post ∧
        (∀ p ∈ pre, ∃ c, src p.index p.type = .ok c) ∧
        src bad.index bad.type = .error e ∧
        (App.addCountToJobs src jobs).2 =
          (pre ++ [bad]).map (fun p => (p.index, p.type)) ∧
        ∃ cs, List.Forall₂ (fun (p : PrepJob) (c : Nat) =>
            src p.index p.type = .ok c) pre cs ∧
          (Unnamed.addCountToJobs src total0 jobs).2.2 = total0 + cs.sum) := by
  induction jobs generalizing total0 with
  | nil =>
    refine ⟨⟨rfl, rfl⟩, ?_, ?_⟩
    · intro js hjs
      simp [App.addCountToJobs] at hjs
      subst hjs
      exact ⟨List.Forall₂.nil, rfl, by simp [Unnamed.addCountToJobs]⟩
    · intro e he
      simp [App.addCountToJobs] at he
  | cons j rest ih =>
    cases hsrc : src j.index j.type with
    | error e0 =>
      have hA : App.addCountToJobs src (j :: rest) =
          (.error e0, [(j.index, j.type)]) := by
        simp [App.addCountToJobs, hsrc]
      have hU : Unnamed.addCountToJobs src total0 (j :: rest) =
          (.error e0, ([(j.index, j.type)], total0)) := by
        simp [Unnamed.addCountToJobs, hsrc]
      refine ⟨⟨by rw [hA, hU], by rw [hA, hU]⟩, ?_, ?_⟩
      · intro js hjs
        rw [hA] at hjs
        simp at hjs
      · intro e he
        rw [hA] at he
        simp at he
        subst he
        refine ⟨[], j, rest, rfl, by simp, hsrc, by rw [hA]; simp, [],
          List.Forall₂.nil, by rw [hU]; simp⟩
    | ok c =>
      have hA : App.addCountToJobs src (j :: rest) =
          ((App.addCountToJobs src rest).1.map
            (fun js => Job.mk j.index j.type c :: js),
           (j.index, j.type) :: (App.addCountToJobs src rest).2) := by
        simp [App.addCountToJobs, hsrc]
      have hU : Unnamed.addCountToJobs src total0 (j :: rest) =
          ((Unnamed.addCountToJobs src (total0 + c) rest).1.map
            (fun js => Job.mk j.index j.type c :: js),
           ((j.index, j.type) :: (Unnamed.addCountToJobs src (total0 + c) rest).2.1,
            (Unnamed.addCountToJobs src (total0 + c) rest).2.2)) := by
        simp [Unnamed.addCountToJobs, hsrc]
      obtain ⟨⟨ihres, ihtr⟩, ihok, iherr⟩ := ih (total0 + c)
      refine ⟨⟨?_, ?_⟩, ?_, ?_⟩
      · rw [hA, hU]
        simp [ihres]
      · rw [hA, hU]
        simp [ihtr]
      · intro js hjs
        rw [hA] at hjs
        cases hrest : (App.addCountToJobs src rest).1 with
        | error e1 => rw [hrest] at hjs; simp [Except.map] at hjs
        | ok js0 =>
          rw [hrest] at hjs
          simp [Except.map] at hjs
          subst hjs
          obtain ⟨f2, tr, tot⟩ := ihok js0 hrest
          refine ⟨List.Forall₂.cons ⟨rfl, rfl, hsrc⟩ f2, ?_, ?_⟩
          · rw [hA]
            simp [tr]
          · rw [hU]
            simp only [tot]
            simp [List.sum_cons]
            omega
      · intro e he
        rw [hA] at he
        cases hrest : (App.addCountToJobs src rest).1 with
        | ok js0 => rw [hrest] at he; simp [Except.map] at he
        | error e1 =>
          rw [hrest] at he
          simp [Except.map] at he
          subst he
          obtain ⟨pre, bad, post, hsplit, hpre, hbad, htr, cs, hcs, htot⟩ :=
            iherr e1 hrest
          refine ⟨j :: pre, bad, post, by rw [hsplit]; simp, ?_, hbad, ?_,
            c :: cs, List.Forall₂.cons hsrc hcs, ?_⟩
          · intro p hp
            rcases List.mem_cons.mp hp with hp | hp
            · exact ⟨c, hp ▸ hsrc⟩
            · exact hpre p hp
          · rw [hA]
            simp [htr]
          · rw [hU]
            simp only [htot, List.sum_cons]
            omega

/-- C6 witness: a source that knows only index `a` aborts the enrichment
of three jobs at the second query, leaving the third unqueried and the
running total at the succeeded prefix. -/
theorem addCountToJobs_spec_witness :
    (App.addCountToJobs srcBoom
      [⟨"a", "t"⟩, ⟨"b", "t"⟩, ⟨"c", "t"⟩]).1 = .error "boom" ∧
    (∃ pre bad post,
      ([⟨"a", "t"⟩, ⟨"b", "t"⟩, ⟨"c", "t"⟩] : List PrepJob) = pre ++ bad :: post ∧
      (∀ p ∈ pre, ∃ c, srcBoom p.index p.type = .ok c) ∧
      srcBoom bad.index bad.type = .error "boom" ∧
      (App.addCountToJobs srcBoom [⟨"a", "t"⟩, ⟨"b", "t"⟩, ⟨"c", "t"⟩]).2 =
        (pre ++ [bad]).map (fun p => (p.index, p.type)) ∧
      ∃ cs, List.Forall₂ (fun (p : PrepJob) (c : Nat) =>
          srcBoom p.index p.type = .ok c) pre cs ∧
        (Unnamed.addCountToJobs srcBoom 10
          [⟨"a", "t"⟩, ⟨"b", "t"⟩, ⟨"c", "t"⟩]).2.2 = 10 + cs.sum) :=
  ⟨rfl,
    (addCountToJobs_spec srcBoom [⟨"a", "t"⟩, ⟨"b", "t"⟩, ⟨"c", "t"⟩] 10).2.2
      "boom" rfl⟩

/-- C9: filters, comparator and handles live in module-level variables
shared by all Manager instances of the module.  Constructing a second
Manager overwrites the module-level source/redis handles (last write
wins) while the first instance's own `self.source` field is untouched
and unused by the shared operations; two `setIndexFilter` calls from any
instances leave exactly the state of the second call alone; and
`prepareNewJobs` (like every shared operation) reads only the module
state, so after the second construction it runs against the second
instance's handles. -/
theorem module_level_config_interference
    (s1 s2 : EsClient) (r1 r2 : Nat) (m : App.ModuleState) :
    ((App.Manager s2 r2 (App.Manager s1 r1 m).2).2.source = some s2 ∧
     (App.Manager s2 r2 (App.Manager s1 r1 m).2).2.redis = some r2 ∧
     (App.Manager s1 r1 m).1.source = s1) ∧
    (∀ f g m1 m2 m2b,
      App.setIndexFilter f m = .ok m1 →
      App.setIndexFilter g m1 = .ok m2 →
      App.setIndexFilter g m = .ok m2b →
      m2 = m2b ∧
      ∀ xs, App.filterIndicesAndTypes m2 xs = App.filterIndicesAndTypes m2b xs) ∧
    (∀ names, App.prepareNewJobs (App.Manager s2 r2 (App.Manager s1 r1 m).2).2 names =
      App.prepareNewJobs { m with source := some s2, redis := some r2 } names) := by
  refine ⟨⟨rfl, rfl, rfl⟩, ?_, fun names => rfl⟩
  intro f g m1 m2 m2b h1 h2 h3
  cases hg : App.getFilterFunction IndexInfo.name g with
  | error e =>
    rw [App.setIndexFilter, hg] at h3
    exact absurd h3 (by simp [Except.map])
  | ok gn =>
    cases hf : App.getFilterFunction IndexInfo.name f with
    | error e =>
      rw [App.setIndexFilter, hf] at h1
      exact absurd h1 (by simp [Except.map])
    | ok fn =>
      rw [App.setIndexFilter, hf] at h1
      simp [Except.map] at h1
      rw [App.setIndexFilter, hg] at h2 h3
      simp [Except.map] at h2 h3
      subst h1
      rw [← h2, ← h3]
      exact ⟨rfl, fun xs => rfl⟩

/-- C9 witness: two successive filter writes on the fresh module state,
second write winning. -/
theorem module_level_config_interference_witness :
    App.setIndexFilter (.regex (fun n => n == "A")) App.ModuleState.initial =
      .ok { App.ModuleState.initial with
        indexFilter := some (fun target => target.name == "A") } ∧
    App.setIndexFilter (.regex (fun n => n == "B"))
      { App.ModuleState.initial with
        indexFilter := some (fun target => target.name == "A") } =
      .ok { App.ModuleState.initial with
        indexFilter := some (fun target => target.name == "B") } ∧
    App.setIndexFilter (.regex (fun n => n == "B")) App.ModuleState.initial =
      .ok { App.ModuleState.initial with
        indexFilter := some (fun target => target.name == "B") } ∧
    (({ App.ModuleState.initial with
        indexFilter := some (fun target => target.name == "B") } : App.ModuleState) =
      { App.ModuleState.initial with
        indexFilter := some (fun target => target.name == "B") } ∧
    ∀ xs, App.filterIndicesAndTypes
        { App.ModuleState.initial with
          indexFilter := some (fun target => target.name == "B") } xs =
      App.filterIndicesAndTypes
        { App.ModuleState.initial with
          indexFilter := some (fun target => target.name == "B") } xs) :=
  ⟨rfl, rfl, rfl,
    (module_level_config_interference esSample esSample 0 1
        App.ModuleState.initial).2.1
      (.regex (fun n => n == "A")) (.regex (fun n => n == "B"))
      { App.ModuleState.initial with
        indexFilter := some (fun target => target.name == "A") }
      { App.ModuleState.initial with
        indexFilter := some (fun target => target.name == "B") }
      { App.ModuleState.initial with
        indexFilter := some (fun target => target.name == "B") }
      rfl rfl rfl⟩

/-- Successful enrichment preserves each job's identity (index/type). -/
theorem addCountToJobs_ok_ids (src : CountSource) (ps : List PrepJob)
    (js : List Job) (h : (App.addCountToJobs src ps).1 = .ok js) :
    js.map (fun j => (⟨j.index, j.type⟩ : JobID)) =
      ps.map (fun p => (⟨p.index, p.type⟩ : JobID)) := by
  induction ps generalizing js with
  | nil =>
    simp [App.addCountToJobs] at h
    subst h
    rfl
  | cons p rest ih =>
    cases hsrc : src p.index p.type with
    | error e => simp [App.addCountToJobs, hsrc] at h
    | ok c =>
      simp only [App.addCountToJobs, hsrc] at h
      cases hrest : (App.addCountToJobs src rest).1 with
      | error e1 => rw [hrest] at h; simp [Except.map] at h
      | ok js0 =>
        rw [hrest] at h
        simp [Except.map] at h
        subst h
        simp [ih js0 hrest]

/-- Enqueueing never touches the completed ledger. -/
theorem foldl_queueJob_completedHash (js : List Job) (s : RedisState) :
    (js.foldl (fun t j => App.queueJob (some j) t) s).completedHash =
      s.completedHash := by
  induction js generalizing s with
  | nil => rfl
  | cons j rest ih =>
    rw [List.foldl_cons, ih]
    cases h : (hsetList s.backlogHash j.getID j.count).2 == 0 <;>
      simp [App.queueJob, h]

/-- Queue membership after enqueueing a job list: an id is queued iff it
was queued before or belongs to one of the jobs, provided queue and hash
agree on membership beforehand (they do after `clearBacklogJobs`). -/
theorem mem_foldl_queueJob (js : List Job) (s : RedisState)
    (hsync : ∀ id : JobID, id ∈ s.backlogQueue ↔ ∃ p ∈ s.backlogHash, p.1 = id) :
    ∀ id : JobID,
      id ∈ (js.foldl (fun t j => App.queueJob (some j) t) s).backlogQueue ↔
        (id ∈ s.backlogQueue ∨ ∃ j ∈ js, Job.getID j = id) := by
  induction js generalizing s with
  | nil => simp
  | cons j rest ih =>
    intro id
    by_cases hmem : ∃ p ∈ s.backlogHash, p.1 = j.getID
    · have hstep : App.queueJob (some j) s =
          { s with backlogHash := s.backlogHash.map (fun p => if p.1 == j.getID then (j.getID, j.count) else p) } := by
        simp [App.queueJob, hsetList_existing _ _ _ hmem]
      have hkey : ∀ p : JobID × Nat,
          ((if p.1 == j.getID then (j.getID, j.count) else p) : JobID × Nat).1
            = p.1 := by
        intro p
        by_cases hpj : p.1 = j.getID
        · simp [hpj]
        · simp [hpj]
      have hsync2 : ∀ id2 : JobID,
          id2 ∈ (App.queueJob (some j) s).backlogQueue ↔
            ∃ p ∈ (App.queueJob (some j) s).backlogHash, p.1 = id2 := by
        intro id2
        rw [hstep]
        constructor
        · intro h2
          obtain ⟨p, hp, he⟩ := (hsync id2).mp h2
          exact ⟨_, List.mem_map_of_mem _ hp, (hkey p).trans he⟩
        · rintro ⟨q, hq, he⟩
          obtain ⟨p, hp, hfp⟩ := List.mem_map.mp hq
          refine (hsync id2).mpr ⟨p, hp, ?_⟩
          rw [← (hkey p), hfp, he]
      have hj : j.getID ∈ s.backlogQueue := (hsync _).mpr hmem
      rw [List.foldl_cons, ih (App.queueJob (some j) s) hsync2 id, hstep]
      constructor
      · rintro (h | ⟨j2, hj2, he⟩)
        · exact Or.inl h
        · exact Or.inr ⟨j2, List.mem_cons_of_mem _ hj2, he⟩
      · rintro (h | ⟨j2, hj2, he⟩)
        · exact Or.inl h
        · rcases List.mem_cons.mp hj2 with heq | hrest
          · subst heq
            exact Or.inl (he ▸ hj)
          · exact Or.inr ⟨j2, hrest, he⟩
    · have hf : ∀ p ∈ s.backlogHash, p.1 ≠ j.getID :=
        fun p hp he => hmem ⟨p, hp, he⟩
      have hstep : App.queueJob (some j) s =
          { s with backlogHash := s.backlogHash ++ [(j.getID, j.count)],
                   backlogQueue := s.backlogQueue ++ [j.getID] } := by
        simp [App.queueJob, hsetList_fresh _ _ _ hf]
      have hsync2 : ∀ id2 : JobID,
          id2 ∈ (App.queueJob (some j) s).backlogQueue ↔
            ∃ p ∈ (App.queueJob (some j) s).backlogHash, p.1 = id2 := by
        intro id2
        rw [hstep]
        constructor
        · intro h2
          rcases List.mem_append.mp h2 with h2 | h2
          · obtain ⟨p, hp, he⟩ := (hsync id2).mp h2
            exact ⟨p, List.mem_append.mpr (Or.inl hp), he⟩
          · have he : id2 = j.getID := by simpa using h2
            exact ⟨(j.getID, j.count),
              List.mem_append.mpr (Or.inr (by simp)), he.symm⟩
        · rintro ⟨q, hq, he⟩
          rcases List.mem_append.mp hq with hq | hq
          · exact List.mem_append.mpr
              (Or.inl ((hsync id2).mpr ⟨q, hq, he⟩))
          · have : q = (j.getID, j.count) := by simpa using hq
            subst this
            exact List.mem_append.mpr (Or.inr (by simp [← he]))
      rw [List.foldl_cons, ih (App.queueJob (some j) s) hsync2 id, hstep]
      constructor
      · rintro (h | ⟨j2, hj2, he⟩)
        · rcases List.mem_append.mp h with h | h
          · exact Or.inl h
          · have he : id = j.getID := by simpa using h
            exact Or.inr ⟨j, List.mem_cons_self _ _, he.symm⟩
        · exact Or.inr ⟨j2, List.mem_cons_of_mem _ hj2, he⟩
      · rintro (h | ⟨j2, hj2, he⟩)
        · exact Or.inl (List.mem_append.mpr (Or.inl h))
        · rcases List.mem_cons.mp hj2 with heq | hrest
          · subst heq
            exact Or.inl (List.mem_append.mpr (Or.inr (by simp [← he])))
          · exact Or.inr ⟨j2, hrest, he⟩

/-- C4: with `ignoreCompleted = false`, `initialize` enqueues no job
whose index (collection) equals the index of any Completed-Ledger entry
(exclusion at index level, ignoring the sub-collection); with
`ignoreCompleted = true` it clears the Completed Ledger first and
enqueues exactly the prepared, filtered jobs regardless of prior
completion. -/
theorem completed_reconciliation (m : App.ModuleState) (rs : RedisState)
    (names : String) (pj : List PrepJob) (rs2 rs3 : RedisState)
    (hprep : App.prepareNewJobs m names = .ok pj) :
    ( App.initializeBacklog m rs names false = .ok rs2 →
      ∀ id ∈ rs2.backlogQueue,
        ¬ ∃ p ∈ rs.completedHash, p.1.index = id.index) ∧
    ( App.initializeBacklog m rs names true = .ok rs3 →
      rs3.completedHash = [] ∧
      ∀ id : JobID, id ∈ rs3.backlogQueue ↔
        ∃ j ∈ pj, (⟨j.index, j.type⟩ : JobID) = id) := by
  cases hms : m.source with
  | none => simp [App.prepareNewJobs, hms] at hprep
  | some src =>
  have hsync0 : ∀ id2 : JobID,
      id2 ∈ (App.clearBacklogJobs rs).backlogQueue ↔
        ∃ p ∈ (App.clearBacklogJobs rs).backlogHash, p.1 = id2 := by
    simp [App.clearBacklogJobs]
  constructor
  · intro hok
    have hinitF : App.initializeBacklog m rs names false =
        ((App.addCountToJobs src.count
          (pj.filter (fun p => ! (App.getCompletedJobs
            (App.clearBacklogJobs rs)).any (fun c => c.index == p.index)))).1).map
          (fun jobs => jobs.foldl (fun s j => App.queueJob (some j) s)
            (App.clearBacklogJobs rs)) := by
      simp [App.initializeBacklog, hprep, hms, Except.bind]
    rw [hinitF] at hok
    set keep := pj.filter (fun p => ! (App.getCompletedJobs
      (App.clearBacklogJobs rs)).any (fun c => c.index == p.index)) with hkeep
    cases haddc : (App.addCountToJobs src.count keep).1 with
    | error e => rw [haddc] at hok; simp [Except.map] at hok
    | ok jobs =>
      rw [haddc] at hok
      simp [Except.map] at hok
      subst hok
      intro id hid
      rcases (mem_foldl_queueJob jobs (App.clearBacklogJobs rs) hsync0 id).mp
          hid with hq | ⟨j, hjmem, hjid⟩
      · simp [App.clearBacklogJobs] at hq
      · have hids := addCountToJobs_ok_ids src.count keep jobs haddc
        have hjm : (⟨j.index, j.type⟩ : JobID) ∈
            keep.map (fun p => (⟨p.index, p.type⟩ : JobID)) := by
          rw [← hids]
          exact List.mem_map_of_mem _ hjmem
        obtain ⟨p, hpkeep, hpe⟩ := List.mem_map.mp hjm
        obtain ⟨hppj, hpred⟩ := List.mem_filter.mp hpkeep
        have hany : (App.getCompletedJobs (App.clearBacklogJobs rs)).any
            (fun c => c.index == p.index) = false := by
          simpa using hpred
        rintro ⟨q, hq, hqe⟩
        have hcmem : Job.createFromID q.1 q.2 ∈
            App.getCompletedJobs (App.clearBacklogJobs rs) := by
          simp only [App.getCompletedJobs, App.clearBacklogJobs]
          exact List.mem_map_of_mem _ hq
        have hc := List.any_eq_false.mp hany _ hcmem
        have hpi : p.index = j.index := by
          have := congrArg JobID.index hpe
          simpa using this
        have hidi : id.index = j.index := by
          rw [← hjid]
          rfl
        apply hc
        have : (Job.createFromID q.1 q.2).index = q.1.index := rfl
        rw [this, hqe, hidi, ← hpi]
        simp
  · intro hok
    have hinitT : App.initializeBacklog m rs names true =
        ((App.addCountToJobs src.count pj).1).map
          (fun jobs => jobs.foldl (fun s j => App.queueJob (some j) s)
            (App.clearCompletedJobs (App.clearBacklogJobs rs))) := by
      simp [App.initializeBacklog, hprep, hms, Except.bind]
    rw [hinitT] at hok
    cases haddc : (App.addCountToJobs src.count pj).1 with
    | error e => rw [haddc] at hok; simp [Except.map] at hok
    | ok jobs =>
      rw [haddc] at hok
      simp [Except.map] at hok
      subst hok
      have hsyncC : ∀ id2 : JobID,
          id2 ∈ (App.clearCompletedJobs (App.clearBacklogJobs rs)).backlogQueue ↔
            ∃ p ∈ (App.clearCompletedJobs
              (App.clearBacklogJobs rs)).backlogHash, p.1 = id2 := by
        simp [App.clearBacklogJobs, App.clearCompletedJobs]
      have hids := addCountToJobs_ok_ids src.count pj jobs haddc
      refine ⟨?_, ?_⟩
      · rw [foldl_queueJob_completedHash]
        rfl
      · intro id
        rw [mem_foldl_queueJob jobs _ hsyncC id]
        constructor
        · rintro (hq | ⟨j, hjmem, hjid⟩)
          · simp [App.clearBacklogJobs, App.clearCompletedJobs] at hq
          · have hjm : (⟨j.index, j.type⟩ : JobID) ∈
                pj.map (fun p => (⟨p.index, p.type⟩ : JobID)) := by
              rw [← hids]
              exact List.mem_map_of_mem _ hjmem
            obtain ⟨p, hpp, hpe⟩ := List.mem_map.mp hjm
            exact ⟨p, hpp, hpe.trans hjid⟩
        · rintro ⟨p, hpp, hpe⟩
          have hpm : (⟨p.index, p.type⟩ : JobID) ∈
              jobs.map (fun j => (⟨j.index, j.type⟩ : JobID)) := by
            rw [hids]
            exact List.mem_map_of_mem _ hpp
          obtain ⟨j, hjmem, hje⟩ := List.mem_map.mp hpm
          exact Or.inr ⟨j, hjmem, hje.trans hpe⟩

/-- C4 witness: source with one index `A:t`; a completed entry for index
`A` suppresses the job when `ignoreCompleted` is false, and with
`ignoreCompleted` true the ledger is cleared and the job enqueued. -/
theorem completed_reconciliation_witness :
    App.prepareNewJobs
      ⟨none, none, none, some esSample, some 0⟩ "*" = .ok [⟨"A", "t"⟩] ∧
    App.initializeBacklog ⟨none, none, none, some esSample, some 0⟩
      (⟨[], [], [(⟨"A", "t"⟩, 5)]⟩ : RedisState) "*" false =
      .ok (⟨[], [], [(⟨"A", "t"⟩, 5)]⟩ : RedisState) ∧
    App.initializeBacklog ⟨none, none, none, some esSample, some 0⟩
      (⟨[], [], [(⟨"A", "t"⟩, 5)]⟩ : RedisState) "*" true =
      .ok (⟨[⟨"A", "t"⟩], [(⟨"A", "t"⟩, 3)], []⟩ : RedisState) ∧
    (∀ id ∈ (⟨[], [], [(⟨"A", "t"⟩, 5)]⟩ : RedisState).backlogQueue,
      ¬ ∃ p ∈ (⟨[], [], [(⟨"A", "t"⟩, 5)]⟩ : RedisState).completedHash,
        p.1.index = id.index) ∧
    ((⟨[⟨"A", "t"⟩], [(⟨"A", "t"⟩, 3)], []⟩ : RedisState).completedHash = [] ∧
      ∀ id : JobID,
        id ∈ (⟨[⟨"A", "t"⟩], [(⟨"A", "t"⟩, 3)], []⟩ : RedisState).backlogQueue ↔
          ∃ j ∈ ([⟨"A", "t"⟩] : List PrepJob),
            (⟨j.index, j.type⟩ : JobID) = id) :=
  ⟨rfl, rfl, rfl,
    (completed_reconciliation ⟨none, none, none, some esSample, some 0⟩
      ⟨[], [], [(⟨"A", "t"⟩, 5)]⟩ "*" [⟨"A", "t"⟩]
      ⟨[], [], [(⟨"A", "t"⟩, 5)]⟩ ⟨[⟨"A", "t"⟩], [(⟨"A", "t"⟩, 3)], []⟩
      rfl).1 rfl,
    (completed_reconciliation ⟨none, none, none, some esSample, some 0⟩
      ⟨[], [], [(⟨"A", "t"⟩, 5)]⟩ "*" [⟨"A", "t"⟩]
      ⟨[], [], [(⟨"A", "t"⟩, 5)]⟩ ⟨[⟨"A", "t"⟩], [(⟨"A", "t"⟩, 3)], []⟩
      rfl).2 rfl⟩

/-- Replacing a caller state by one holding the same id (or none, like
the old one) leaves the held-id list unchanged. -/
theorem filterMap_heldId_set_same (cs : List WState) (i : Nat) (w w2 : WState)
    (hi : cs[i]? = some w) (hh : WState.heldId w2 = WState.heldId w) :
    (cs.set i w2).filterMap WState.heldId = cs.filterMap WState.heldId := by
  induction cs generalizing i with
  | nil => simp at hi
  | cons c tl ih =>
    cases i with
    | zero =>
      obtain rfl : c = w := by simpa using hi
      rw [List.set_cons_zero, List.filterMap_cons, List.filterMap_cons, hh]
    | succ m =>
      have hi2 : tl[m]? = some w := by simpa using hi
      rw [List.set_cons_succ, List.filterMap_cons, List.filterMap_cons,
        ih m hi2]

/-- Replacing a caller that held nothing by one holding `id` inserts
exactly `id` into the held-id list (up to permutation). -/
theorem filterMap_heldId_set_new (cs : List WState) (i : Nat) (w w2 : WState)
    (id : JobID) (hi : cs[i]? = some w) (hw : WState.heldId w = none)
    (hw2 : WState.heldId w2 = some id) :
    ((cs.set i w2).filterMap WState.heldId).Perm
      (id :: cs.filterMap WState.heldId) := by
  induction cs generalizing i with
  | nil => simp at hi
  | cons c tl ih =>
    cases i with
    | zero =>
      obtain rfl : c = w := by simpa using hi
      rw [List.set_cons_zero, List.filterMap_cons, List.filterMap_cons, hw, hw2]
    | succ m =>
      have hi2 : tl[m]? = some w := by simpa using hi
      rw [List.set_cons_succ, List.filterMap_cons, List.filterMap_cons]
      cases hc : WState.heldId c with
      | none => exact ih m hi2
      | some x =>
        exact ((ih m hi2).cons x).trans (List.Perm.swap id x _)

/-- Among finished callers, those with a job are exactly those holding
an id, and together with the no-job callers they exhaust the list. -/
theorem countP_partition_done (cs : List WState)
    (hall : ∀ w ∈ cs, WState.isDone w = true) :
    cs.countP WState.isDoneJob = (cs.filterMap WState.heldId).length ∧
    cs.countP WState.isDoneNone + cs.countP WState.isDoneJob = cs.length := by
  induction cs with
  | nil => simp
  | cons c tl ih =>
    have hc := hall c (List.mem_cons_self _ _)
    obtain ⟨ih1, ih2⟩ := ih (fun w hw => hall w (List.mem_cons_of_mem _ hw))
    cases c with
    | start => simp [WState.isDone] at hc
    | gotId id => simp [WState.isDone] at hc
    | gotCount id cnt => simp [WState.isDone] at hc
    | doneJob id cnt =>
      simp [List.countP_cons, List.filterMap_cons, WState.isDoneJob,
        WState.isDoneNone, WState.heldId, ih1]
      omega
    | doneNone =>
      simp [List.countP_cons, List.filterMap_cons, WState.isDoneJob,
        WState.isDoneNone, WState.heldId, ih1]
      omega

/-- One atomic step preserves the system invariant. -/
theorem sysInv_step (initQ : List JobID) (n : Nat) (s : Sys) (i : Nat)
    (hInv : SysInv initQ n s) : SysInv initQ n (stepCaller s i) := by
  obtain ⟨hlen, k, hkle, hq, hperm, hnone⟩ := hInv
  cases hcs : s.callers[i]? with
  | none =>
    simp only [stepCaller, hcs]
    exact ⟨hlen, k, hkle, hq, hperm, hnone⟩
  | some w =>
    cases w with
    | start =>
      cases hqe : s.queue with
      | nil =>
        simp only [stepCaller, hcs, hqe]
        refine ⟨by simp [hlen], k, hkle, by rw [← hqe]; exact hq, ?_, ?_⟩
        · show ((s.callers.set i WState.doneNone).filterMap
            WState.heldId).Perm (initQ.take k)
          rw [filterMap_heldId_set_same s.callers i WState.start
            WState.doneNone hcs rfl]
          exact hperm
        · intro _
          rfl
      | cons id rest =>
        have hkM : k < initQ.length := by
          by_contra hge
          have hdr : initQ.drop k = [] := List.drop_eq_nil_of_le (by omega)
          rw [hq, hdr] at hqe
          exact List.noConfusion hqe
        have hdec : initQ.drop k = initQ[k] :: initQ.drop (k + 1) :=
          List.drop_eq_getElem_cons hkM
        have hinj : id = initQ[k] ∧ rest = initQ.drop (k + 1) := by
          have : id :: rest = initQ[k] :: initQ.drop (k + 1) := by
            rw [← hqe, hq, hdec]
          exact ⟨(List.cons.injEq _ _ _ _ ▸ this).1,
            (List.cons.injEq _ _ _ _ ▸ this).2⟩
        have hnodN : WState.doneNone ∉ s.callers := by
          intro hmem
          rw [hnone hmem] at hqe
          exact List.noConfusion hqe
        simp only [stepCaller, hcs, hqe]
        refine ⟨by simp [hlen], k + 1, by omega, ?_, ?_, ?_⟩
        · exact hinj.2
        · have hstepPerm := filterMap_heldId_set_new s.callers i _
            (WState.gotId id) id hcs rfl rfl
          have htake : initQ.take (k + 1) = initQ.take k ++ [initQ[k]] := by
            rw [List.take_succ, List.getElem?_eq_getElem hkM]
            rfl
          refine hstepPerm.trans ?_
          rw [htake, ← hinj.1]
          exact (hperm.cons id).trans
            (List.perm_append_singleton id (initQ.take k)).symm
        · intro hmem
          rcases List.mem_or_eq_of_mem_set hmem with hmem | habs
          · exact absurd hmem hnodN
          · exact WState.noConfusion habs
    | gotId id =>
      simp only [stepCaller, hcs]
      refine ⟨by simp [hlen], k, hkle, hq, ?_, ?_⟩
      · show ((s.callers.set i
          (WState.gotCount id (hgetList s.hash id))).filterMap
            WState.heldId).Perm (initQ.take k)
        rw [filterMap_heldId_set_same s.callers i (WState.gotId id)
          (WState.gotCount id (hgetList s.hash id)) hcs rfl]
        exact hperm
      · intro hmem
        rcases List.mem_or_eq_of_mem_set hmem with hmem | habs
        · exact hnone hmem
        · exact WState.noConfusion habs
    | gotCount id cnt =>
      simp only [stepCaller, hcs]
      refine ⟨by simp [hlen], k, hkle, hq, ?_, ?_⟩
      · show ((s.callers.set i (WState.doneJob id cnt)).filterMap
          WState.heldId).Perm (initQ.take k)
        rw [filterMap_heldId_set_same s.callers i (WState.gotCount id cnt)
          (WState.doneJob id cnt) hcs rfl]
        exact hperm
      · intro hmem
        rcases List.mem_or_eq_of_mem_set hmem with hmem | habs
        · exact hnone hmem
        · exact WState.noConfusion habs
    | doneJob id cnt =>
      simp only [stepCaller, hcs]
      exact ⟨hlen, k, hkle, hq, hperm, hnone⟩
    | doneNone =>
      simp only [stepCaller, hcs]
      exact ⟨hlen, k, hkle, hq, hperm, hnone⟩

/-- Every schedule preserves the system invariant. -/
theorem sysInv_run (initQ : List JobID) (n : Nat) (s : Sys) (sched : List Nat)
    (h : SysInv initQ n s) : SysInv initQ n (runSched s sched) := by
  induction sched generalizing s with
  | nil => exact h
  | cons i tl ih => exact ih (stepCaller s i) (sysInv_step initQ n s i h)

/-- The initial system satisfies the invariant. -/
theorem sysInv_init (initQ : List JobID) (hash0 : List (JobID × Nat)) (n : Nat) :
    SysInv initQ n (Sys.init initQ hash0 n) := by
  have hrep : ∀ m : Nat,
      (List.replicate m WState.start).filterMap WState.heldId = [] := by
    intro m
    induction m with
    | zero => rfl
    | succ m2 ih => rw [List.replicate_succ, List.filterMap_cons]; exact ih
  refine ⟨List.length_replicate _ _, 0, Nat.zero_le _, rfl, ?_, ?_⟩
  · show ((List.replicate n WState.start).filterMap
      WState.heldId).Perm (initQ.take 0)
    rw [hrep n]
    simp
  · intro hmem
    have := List.eq_of_mem_replicate hmem
    exact WState.noConfusion this

/-- Running one lone caller to completion has exactly the store effect
and result of `App.fetchJob` (the fine-grained model refines the
operation it splits). -/
theorem single_caller_agrees_with_fetchJob (q : List JobID)
    (h : List (JobID × Nat)) :
    (runSched (Sys.init q h 1) [0, 0, 0]).queue =
      (App.fetchJob ⟨q, h, []⟩).2.backlogQueue ∧
    (runSched (Sys.init q h 1) [0, 0, 0]).hash =
      (App.fetchJob ⟨q, h, []⟩).2.backlogHash ∧
    (runSched (Sys.init q h 1) [0, 0, 0]).callers.filterMap WState.heldId =
      ((App.fetchJob ⟨q, h, []⟩).1.map Job.getID).toList := by
  cases q with
  | nil => exact ⟨rfl, rfl, rfl⟩
  | cons id rest => exact ⟨rfl, rfl, rfl⟩

/-- C1: for a backlog of `M` unique ids and `N > M` concurrent
`fetchJob` callers, under every interleaving of their atomic store calls
in which all callers finish, exactly `M` callers end with a job, the
other `N - M` end with the null no-job result, and the returned ids are
exactly the `M` backlog ids — no id is returned to two callers. -/
theorem fetchJob_exactly_once (initQ : List JobID) (hash0 : List (JobID × Nat))
    (n : Nat) (sched : List Nat) (hnd : initQ.Nodup) (hlt : initQ.length < n)
    (hdone : ∀ w ∈ (runSched (Sys.init initQ hash0 n) sched).callers,
      WState.isDone w = true) :
    (runSched (Sys.init initQ hash0 n) sched).callers.countP
      WState.isDoneJob = initQ.length ∧
    (runSched (Sys.init initQ hash0 n) sched).callers.countP
      WState.isDoneNone = n - initQ.length ∧
    ((runSched (Sys.init initQ hash0 n) sched).callers.filterMap
      WState.heldId).Perm initQ ∧
    ((runSched (Sys.init initQ hash0 n) sched).callers.filterMap
      WState.heldId).Nodup := by
  obtain ⟨hlen, k, hkle, hq, hperm, hnone⟩ :=
    sysInv_run initQ n _ sched (sysInv_init initQ hash0 n)
  obtain ⟨hcount, hpart⟩ :=
    countP_partition_done (runSched (Sys.init initQ hash0 n) sched).callers hdone
  have hlenheld :
      ((runSched (Sys.init initQ hash0 n) sched).callers.filterMap
        WState.heldId).length = k := by
    rw [hperm.length_eq, List.length_take]
    omega
  have hkM : k = initQ.length := by
    by_contra hne
    have hklt : k < initQ.length := by omega
    have hqne : (runSched (Sys.init initQ hash0 n) sched).queue ≠ [] := by
      rw [hq]
      intro habs
      have := congrArg List.length habs
      simp [List.length_drop] at this
      omega
    have hnodN : WState.doneNone ∉
        (runSched (Sys.init initQ hash0 n) sched).callers :=
      fun hmem => hqne (hnone hmem)
    have hzero : (runSched (Sys.init initQ hash0 n) sched).callers.countP
        WState.isDoneNone = 0 := by
      rw [List.countP_eq_zero]
      intro w hw hbool
      cases w <;> simp [WState.isDoneNone] at hbool
      exact hnodN hw
    have hdj : (runSched (Sys.init initQ hash0 n) sched).callers.countP
        WState.isDoneJob = n := by
      rw [hzero] at hpart
      omega
    rw [hcount, hlenheld] at hdj
    omega
  subst hkM
  have htake : initQ.take initQ.length = initQ := List.take_length initQ
  rw [htake] at hperm
  refine ⟨by rw [hcount, hlenheld], by omega, hperm,
    hperm.nodup_iff.mpr hnd⟩

/-- C1 witness: one backlog id, two callers, the schedule letting caller
0 run its three store calls and caller 1 then observe the empty queue. -/
theorem fetchJob_exactly_once_witness :
    ([⟨"a", "t"⟩] : List JobID).Nodup ∧
    ([⟨"a", "t"⟩] : List JobID).length < 2 ∧
    (∀ w ∈ (runSched (Sys.init [⟨"a", "t"⟩] [(⟨"a", "t"⟩, 3)] 2)
      [0, 0, 0, 1]).callers, WState.isDone w = true) ∧
    ((runSched (Sys.init [⟨"a", "t"⟩] [(⟨"a", "t"⟩, 3)] 2)
        [0, 0, 0, 1]).callers.countP WState.isDoneJob =
      ([⟨"a", "t"⟩] : List JobID).length ∧
    (runSched (Sys.init [⟨"a", "t"⟩] [(⟨"a", "t"⟩, 3)] 2)
        [0, 0, 0, 1]).callers.countP WState.isDoneNone =
      2 - ([⟨"a", "t"⟩] : List JobID).length ∧
    ((runSched (Sys.init [⟨"a", "t"⟩] [(⟨"a", "t"⟩, 3)] 2)
        [0, 0, 0, 1]).callers.filterMap WState.heldId).Perm [⟨"a", "t"⟩] ∧
    ((runSched (Sys.init [⟨"a", "t"⟩] [(⟨"a", "t"⟩, 3)] 2)
        [0, 0, 0, 1]).callers.filterMap WState.heldId).Nodup) :=
  ⟨by decide, by decide, by decide,
    fetchJob_exactly_once [⟨"a", "t"⟩] [(⟨"a", "t"⟩, 3)] 2 [0, 0, 0, 1]
      (by decide) (by decide) (by decide)⟩

end MultiReindex
